import Mathlib

/-!
Verification development for the dgo core (files internal/array.go and
internal/meta.go of the repository).

The data model is a shallow embedding of the dgo value and type system
restricted to the variants that the array and meta components touch:
integer values, array values (a slice of values, an optional declared
array type, a frozen flag), and the types Any, Integer (default),
exact integer, default array, sized array, exact array, tuple, meta,
and the all-of composites that the array code produces for element
types of exact arrays and tuples.

Go struct fields are mirrored positionally; Go int is mirrored as Int
with math.MaxInt64 spelled out.  Functions are translated from the
source files; definitions whose source is not part of the repository
snapshot (the Assignable and Instance engines, the Any and Integer
types, the all-of composites) are modelled from the specification and
marked as such in their doc comments.  The recursion guard of the
engine is dropped: values and types here are finite trees, so the
guard can never fire.
-/

mutual

inductive DgoValue : Type where
  | vInt : Int → DgoValue
  | vArr : ArrayVal → DgoValue
  deriving Repr

inductive ArrayVal : Type where
  | mk : List DgoValue → Option DgoType → Bool → ArrayVal
  deriving Repr

inductive DgoType : Type where
  | tAny : DgoType
  | tInt : DgoType
  | tIntExact : Int → DgoType
  | tArrayDefault : DgoType
  | tArraySized : DgoType → Int → Int → DgoType
  | tArrayExact : ArrayVal → DgoType
  | tTuple : List DgoType → Bool → DgoType
  | tMeta : Option DgoType → DgoType
  | tAllOfValue : List DgoValue → DgoType
  | tAllOf : List DgoType → DgoType
  deriving Repr

end

open DgoValue DgoType

/-- Field slice of the array struct. -/
def ArrayVal.slice : ArrayVal → List DgoValue
  | .mk s _ _ => s

/-- Field typ of the array struct (the optional declared type). -/
def ArrayVal.typ : ArrayVal → Option DgoType
  | .mk _ t _ => t

/-- Field frozen of the array struct. -/
def ArrayVal.frozen : ArrayVal → Bool
  | .mk _ _ f => f

/-- math.MaxInt64, the sentinel for an unbounded size in the Go source. -/
def maxInt64 : Int := 9223372036854775807

/-- Last element of a list of types, with tAny as a junk default for the
empty list (the Go source would panic there; no constructed type reaches
that case). -/
def lastD : List DgoType → DgoType
  | [] => tAny
  | [t] => t
  | _ :: r => lastD r

/-- array.Type (array.go): an array without a declared type is its own
exact type; otherwise the declared type is returned.  For integer values
the exact integer type is returned (primitive Type methods are outside
src; modelled from the spec sentence that every primitive's type is an
Exact type backed by itself). -/
def typeOf : DgoValue → DgoType
  | vInt n => tIntExact n
  | vArr a =>
    match a.typ with
    | none => tArrayExact a
    | some t => t

mutual

def vSize : DgoValue → Nat
  | vInt _ => 1
  | vArr a => 1 + aSize a

def aSize : ArrayVal → Nat
  | .mk s t _ => 1 + vlSize s + otSize t

def vlSize : List DgoValue → Nat
  | [] => 0
  | v :: r => 1 + vSize v + vlSize r

def tSize : DgoType → Nat
  | tAny => 1
  | tInt => 1
  | tIntExact _ => 1
  | tArrayDefault => 1
  | tArraySized e _ _ => 1 + tSize e
  | tArrayExact a => 1 + aSize a
  | tTuple ts _ => 1 + tlSize ts
  | tMeta o => 1 + otSize o
  | tAllOfValue vs => 1 + vlSize vs
  | tAllOf ts => 1 + tlSize ts

def tlSize : List DgoType → Nat
  | [] => 0
  | t :: r => 1 + tSize t + tlSize r

def otSize : Option DgoType → Nat
  | none => 0
  | some t => 1 + tSize t

end

theorem vSize_pos : ∀ v, 0 < vSize v
  | vInt _ => by simp [vSize]
  | vArr _ => by simp [vSize]

theorem mem_vlSize {v : DgoValue} : ∀ {s : List DgoValue}, v ∈ s → vSize v < vlSize s
  | _ :: r, h => by
    rcases List.mem_cons.mp h with h | h
    · subst h; simp [vlSize]; omega
    · have := mem_vlSize (s := r) h
      simp [vlSize]; omega

theorem mem_tlSize {t : DgoType} : ∀ {l : List DgoType}, t ∈ l → tSize t < tlSize l
  | _ :: r, h => by
    rcases List.mem_cons.mp h with h | h
    · subst h; simp [tlSize]; omega
    · have := mem_tlSize (l := r) h
      simp [tlSize]; omega

theorem tSize_typeOf_le : ∀ v, tSize (typeOf v) ≤ vSize v := by
  intro v
  match v with
  | vInt n => simp [typeOf, tSize, vSize]
  | vArr a =>
    match a with
    | .mk s none f => simp [typeOf, ArrayVal.typ, tSize, vSize, aSize]
    | .mk s (some t) f =>
      simp [typeOf, ArrayVal.typ, vSize, aSize, otSize]
      omega

theorem lastD_mem : ∀ {l : List DgoType}, l ≠ [] → lastD l ∈ l
  | [t], _ => by simp [lastD]
  | t :: u :: r, _ => by
    have := lastD_mem (l := u :: r) (by simp)
    simp only [lastD]
    exact List.mem_cons_of_mem _ this

theorem tlSize_dropLast_le : ∀ l : List DgoType, tlSize l.dropLast ≤ tlSize l
  | [] => Nat.le_refl _
  | [t] => by simp [tlSize]
  | t :: u :: r => by
    have ih := tlSize_dropLast_le (u :: r)
    have h1 : (t :: u :: r).dropLast = t :: (u :: r).dropLast := List.dropLast_cons₂ ..
    rw [h1]
    show 1 + tSize t + tlSize (u :: r).dropLast ≤ 1 + tSize t + tlSize (u :: r)
    omega

/-!
Deep equality of values.  The engine equals(seen, a, b) is not part of
the snapshot; it dispatches to each value's deepEqual method with a
cycle guard that cannot fire on finite trees.  The per-variant methods
are from the source: array.deepEqual compares only the slices through
sliceEquals (array.go), integer equality compares the wrapped machine
integers, and equality across kinds is false.
-/

mutual

def equalsVal : DgoValue → DgoValue → Bool
  | vInt n, vInt m => n == m
  | vArr (.mk s _ _), vArr (.mk s2 _ _) => sliceEquals s s2
  | _, _ => false
termination_by v _ => vSize v
decreasing_by
  simp_wf
  simp [vSize, aSize]
  omega

def sliceEquals : List DgoValue → List DgoValue → Bool
  | [], [] => true
  | v :: r, w :: s => equalsVal v w && sliceEquals r s
  | _, _ => false
termination_by l _ => vlSize l
decreasing_by
  all_goals simp_wf
  all_goals simp [vlSize]
  all_goals omega

end

mutual

theorem equalsVal_refl : ∀ v, equalsVal v v = true
  | vInt n => by simp [equalsVal]
  | vArr (.mk s t f) => by
    have := sliceEquals_refl s
    simp [equalsVal, this]
termination_by v => vSize v
decreasing_by
  simp_wf
  simp [vSize, aSize]
  omega

theorem sliceEquals_refl : ∀ s, sliceEquals s s = true
  | [] => by simp [sliceEquals]
  | v :: r => by
    have h1 := equalsVal_refl v
    have h2 := sliceEquals_refl r
    simp [sliceEquals, h1, h2]
termination_by s => vlSize s
decreasing_by
  all_goals simp_wf
  all_goals simp [vlSize]
  all_goals omega

end

/-!
Deep equality of types.  The per-variant Equals and deepEqual methods
are from array.go and meta.go where present: sizedArrayType.deepEqual,
exactArrayType.Equals, tupleType.deepEqual with its tupleEquals helper
(which also matches an exact array type viewed as a tuple, comparing
each fixed position type against the corresponding element value's own
type), metaType.Equals, and identity for the interned default types.
Equality of the all-of composites is modelled from the spec as
elementwise equality of same-kind composites.
-/

mutual

def typeEquals : DgoType → DgoType → Bool
  | tAny, tAny => true
  | tInt, tInt => true
  | tIntExact n, tIntExact m => n == m
  | tArrayDefault, tArrayDefault => true
  | tArraySized e mn mx, tArraySized e2 mn2 mx2 =>
    mn == mn2 && mx == mx2 && typeEquals e e2
  | tArrayExact (.mk s _ _), tArrayExact (.mk s2 _ _) => sliceEquals s s2
  | tTuple ts v, tTuple ts2 v2 => v == v2 && typeEqualsList ts ts2
  | tTuple ts false, tArrayExact (.mk s2 _ _) =>
    ts.length == s2.length && typeEqualsVals ts s2
  | tMeta none, tMeta none => true
  | tMeta (some t), tMeta (some t2) => typeEquals t t2
  | tAllOfValue vs, tAllOfValue vs2 => sliceEquals vs vs2
  | tAllOf ts, tAllOf ts2 => typeEqualsList ts ts2
  | _, _ => false
termination_by t o => tSize t + tSize o
decreasing_by
  all_goals simp_wf
  all_goals simp [tSize, tlSize, otSize, aSize]
  all_goals omega

def typeEqualsList : List DgoType → List DgoType → Bool
  | [], [] => true
  | t :: r, u :: s => typeEquals t u && typeEqualsList r s
  | _, _ => false
termination_by l m => tlSize l + tlSize m
decreasing_by
  all_goals simp_wf
  all_goals simp [tlSize]
  all_goals omega

def typeEqualsVals : List DgoType → List DgoValue → Bool
  | [], _ => true
  | _, [] => true
  | t :: r, v :: s => typeEquals t (typeOf v) && typeEqualsVals r s
termination_by l m => tlSize l + vlSize m
decreasing_by
  all_goals simp_wf
  all_goals simp [tlSize, vlSize]
  · have := tSize_typeOf_le v
    omega
  · omega

end

/-!
Unique (array.go): keeps the first occurrence of each element, where a
candidate is dropped when its Equals method accepts an already kept
element.  Only the variant for lists of types is needed here (it is
used by tupleElementType).
-/

def memEquals (t : DgoType) (seen : List DgoType) : Bool :=
  seen.any fun s => typeEquals t s

def dedupAux : List DgoType → List DgoType → List DgoType
  | _, [] => []
  | seen, t :: r =>
    if memEquals t seen then dedupAux seen r else t :: dedupAux (t :: seen) r

def dedupTypes (l : List DgoType) : List DgoType :=
  dedupAux [] l

theorem tlSize_dedupAux_le : ∀ (seen l : List DgoType), tlSize (dedupAux seen l) ≤ tlSize l
  | _, [] => Nat.le_refl _
  | seen, t :: r => by
    by_cases h : memEquals t seen = true
    · have := tlSize_dedupAux_le seen r
      simp [dedupAux, h, tlSize]
      omega
    · have := tlSize_dedupAux_le (t :: seen) r
      simp [dedupAux, h, tlSize]
      omega

theorem mem_dedupAux : ∀ {seen l : List DgoType} {x : DgoType}, x ∈ dedupAux seen l → x ∈ l
  | _, [], _ => by intro hm; simp [dedupAux] at hm
  | seen, t :: r, x => by
    by_cases h : memEquals t seen = true
    · intro hm
      simp only [dedupAux, h, if_pos] at hm
      exact List.mem_cons_of_mem _ (mem_dedupAux hm)
    · intro hm
      simp only [dedupAux, h] at hm
      rcases List.mem_cons.mp hm with h2 | h2
      · exact h2 ▸ List.mem_cons_self _ _
      · exact List.mem_cons_of_mem _ (mem_dedupAux h2)

theorem tlSize_append : ∀ a b : List DgoType, tlSize (a ++ b) = tlSize a + tlSize b
  | [], b => by simp [tlSize]
  | t :: r, b => by
    have := tlSize_append r b
    simp [tlSize, this]
    omega

theorem tlSize_dropLast_lastD : ∀ (l : List DgoType), l ≠ [] →
    tlSize l = tlSize l.dropLast + 1 + tSize (lastD l)
  | [t], _ => by simp [tlSize, lastD]
  | t :: u :: r, _ => by
    have ih := tlSize_dropLast_lastD (u :: r) (by simp)
    have h1 : (t :: u :: r).dropLast = t :: (u :: r).dropLast := List.dropLast_cons₂ ..
    rw [h1]
    show 1 + tSize t + tlSize (u :: r) = 1 + tSize t + tlSize (u :: r).dropLast + 1 + tSize (lastD (t :: u :: r))
    have h2 : lastD (t :: u :: r) = lastD (u :: r) := rfl
    rw [h2]
    omega

/-!
Size bounds of array-kind types (Min and Max methods of array.go):
the default array type is unbounded with minimum 0, a sized array type
carries its bounds, an exact array type has its length as both bounds,
and a tuple follows tupleMin and tupleMax: the number of fixed
positions plus the variadic tail's bound, with an unbounded tail
(math.MaxInt64) kept as is.  Non-array types have no Min or Max method
in Go; the junk value 0 stands in for the panic an impossible cast
would produce.  An empty variadic tuple list cannot be produced by the
constructors and also gets a junk value.
-/

def minOfD : DgoType → Int
  | tArrayDefault => 0
  | tArraySized _ mn _ => mn
  | tArrayExact (.mk s _ _) => s.length
  | tTuple ts false => ts.length
  | tTuple [] true => 0
  | tTuple (t0 :: tr) true =>
    ((t0 :: tr).length - 1 : Int) + minOfD (lastD (t0 :: tr))
  | _ => 0
termination_by t => tSize t
decreasing_by
  simp_wf
  have h1 := lastD_mem (l := t0 :: tr) (by simp)
  have h2 := mem_tlSize h1
  simp [tSize]
  omega

def maxOfD : DgoType → Int
  | tArrayDefault => maxInt64
  | tArraySized _ _ mx => mx
  | tArrayExact (.mk s _ _) => s.length
  | tTuple ts false => ts.length
  | tTuple [] true => 0
  | tTuple (t0 :: tr) true =>
    let vn := maxOfD (lastD (t0 :: tr))
    if vn < maxInt64 then ((t0 :: tr).length - 1 : Int) + vn else vn
  | _ => 0
termination_by t => tSize t
decreasing_by
  simp_wf
  have h1 := lastD_mem (l := t0 :: tr) (by simp)
  have h2 := mem_tlSize h1
  simp [tSize]
  omega

/-!
ElementType (array.go).  defaultArrayType yields Any; sizedArrayType
yields its element type; exactArrayType yields Any when empty, the
single element's own type when of length one, and otherwise the all-of
composite over the element values (allOfValueType); tupleType follows
tupleElementType: Any when empty, the single type (or, when variadic,
that array type's element type) when of length one, and otherwise the
list of position types - with the last replaced by its element type
when variadic - made unique, yielding the single survivor or the
all-of composite over the survivors (allOfType).  Non-array types have
no ElementType method; tAny stands in for the impossible case.
-/

def elementTypeOfD : DgoType → DgoType
  | tArrayDefault => tAny
  | tArraySized e _ _ => e
  | tArrayExact (.mk [] _ _) => tAny
  | tArrayExact (.mk [v] _ _) => typeOf v
  | tArrayExact (.mk s _ _) => tAllOfValue s
  | tTuple [] _ => tAny
  | tTuple [t0] false => t0
  | tTuple [t0] true => elementTypeOfD t0
  | tTuple (t0 :: t1 :: tr) variadic =>
    let cp := if variadic then
        (t0 :: t1 :: tr).dropLast ++ [elementTypeOfD (lastD (t0 :: t1 :: tr))]
      else t0 :: t1 :: tr
    match dedupTypes cp with
    | [t] => t
    | u => tAllOf u
  | _ => tAny
termination_by t => tSize t
decreasing_by
  all_goals simp_wf
  · simp [tSize, tlSize]
    omega
  · have h1 := lastD_mem (l := t0 :: t1 :: tr) (by simp)
    have h2 := mem_tlSize h1
    simp [tSize]
    omega

theorem tlSize_cp_le (ts : List DgoType) (hne : ts ≠ [])
    (hlast : tSize (elementTypeOfD (lastD ts)) ≤ tSize (lastD ts)) :
    tlSize (ts.dropLast ++ [elementTypeOfD (lastD ts)]) ≤ tlSize ts := by
  rw [tlSize_append]
  have h1 := tlSize_dropLast_lastD ts hne
  simp [tlSize]
  omega

theorem elementTypeOfD_size : ∀ t, tSize (elementTypeOfD t) ≤ tSize t := by
  intro t
  induction t using elementTypeOfD.induct with
  | case1 => simp [elementTypeOfD, tSize]
  | case2 e mn mx => simp [elementTypeOfD, tSize]
  | case3 o b => cases o <;> simp [elementTypeOfD, tSize, aSize, vlSize, otSize]
  | case4 v o b =>
    have := tSize_typeOf_le v
    cases o <;> (simp [elementTypeOfD, tSize, aSize, vlSize, otSize]; omega)
  | case5 s o b h1 h2 =>
    rcases s with _ | ⟨v, _ | ⟨w, r⟩⟩
    · exact absurd rfl h1
    · exact absurd rfl (h2 v)
    · cases o <;> simp [elementTypeOfD, tSize, aSize, vlSize, otSize] <;> omega
  | case6 b => simp [elementTypeOfD, tSize, tlSize]
  | case7 t0 => simp [elementTypeOfD, tSize, tlSize]; omega
  | case8 t0 ih => simp [elementTypeOfD, tSize, tlSize]; omega
  | case9 t0 t1 tr variadic cp telem heq ihlast =>
    simp only [elementTypeOfD]
    have h4 : tlSize (if variadic = true then
        (t0 :: t1 :: tr).dropLast ++ [elementTypeOfD (lastD (t0 :: t1 :: tr))]
      else t0 :: t1 :: tr) ≤ tlSize (t0 :: t1 :: tr) := by
      cases variadic
      · simp
      · simp only [if_pos]
        exact tlSize_cp_le _ (by simp) ihlast
    split
    · next u hu =>
      have hmem : u ∈ dedupTypes (if variadic = true then
          (t0 :: t1 :: tr).dropLast ++ [elementTypeOfD (lastD (t0 :: t1 :: tr))]
        else t0 :: t1 :: tr) := by rw [hu]; simp
      have h3 := mem_tlSize (mem_dedupAux hmem)
      simp only [tSize]
      omega
    · next =>
      have h5 := tlSize_dedupAux_le [] (if variadic = true then
          (t0 :: t1 :: tr).dropLast ++ [elementTypeOfD (lastD (t0 :: t1 :: tr))]
        else t0 :: t1 :: tr)
      simp only [tSize, dedupTypes] at h5 ⊢
      omega
  | case10 t0 t1 tr variadic cp hne ihlast =>
    simp only [elementTypeOfD]
    have h4 : tlSize (if variadic = true then
        (t0 :: t1 :: tr).dropLast ++ [elementTypeOfD (lastD (t0 :: t1 :: tr))]
      else t0 :: t1 :: tr) ≤ tlSize (t0 :: t1 :: tr) := by
      cases variadic
      · simp
      · simp only [if_pos]
        exact tlSize_cp_le _ (by simp) ihlast
    split
    · next u hu =>
      have hmem : u ∈ dedupTypes (if variadic = true then
          (t0 :: t1 :: tr).dropLast ++ [elementTypeOfD (lastD (t0 :: t1 :: tr))]
        else t0 :: t1 :: tr) := by rw [hu]; simp
      have h3 := mem_tlSize (mem_dedupAux hmem)
      simp only [tSize]
      omega
    · next =>
      have h5 := tlSize_dedupAux_le [] (if variadic = true then
          (t0 :: t1 :: tr).dropLast ++ [elementTypeOfD (lastD (t0 :: t1 :: tr))]
        else t0 :: t1 :: tr)
      simp only [tSize, dedupTypes] at h5 ⊢
      omega
  | case11 x h1 h2 h3 h4 h5 h6 h7 h8 h9 =>
    cases x with
    | tAny => simp [elementTypeOfD, tSize]
    | tInt => simp [elementTypeOfD, tSize]
    | tIntExact n => simp [elementTypeOfD, tSize]
    | tArrayDefault => exact absurd rfl h1
    | tArraySized e mn mx => exact absurd rfl (h2 e mn mx)
    | tArrayExact a =>
      match a with
      | .mk s o b => exact absurd rfl (h5 s o b)
    | tTuple ts v =>
      rcases ts with _ | ⟨a, _ | ⟨b, r⟩⟩
      · exact absurd rfl (h6 v)
      · cases v
        · exact absurd rfl (h7 a)
        · exact absurd rfl (h8 a)
      · exact absurd rfl (h9 a b r v)
    | tMeta o => simp [elementTypeOfD, tSize]
    | tAllOfValue vs => simp [elementTypeOfD, tSize]
    | tAllOf ts => simp [elementTypeOfD, tSize]

/-- Identity test against the interned DefaultAnyType (allInstance in
array.go shortcuts when the element type is that singleton). -/
def isAnyB : DgoType → Bool
  | tAny => true
  | _ => false

theorem vlSize_drop_le : ∀ (n : Nat) (s : List DgoValue), vlSize (s.drop n) ≤ vlSize s
  | 0, _ => Nat.le_refl _
  | _ + 1, [] => Nat.le_refl _
  | n + 1, v :: r => by
    have := vlSize_drop_le n r
    simp only [List.drop_succ_cons, vlSize]
    omega

/-!
The Instance engine.  Instance(guard, t, value) is not part of the
snapshot; it dispatches to the DeepInstance or Instance method of the
type, with a recursion guard that cannot fire on finite trees.  The
per-variant bodies below are from array.go (sizedArrayType.DeepInstance
with its allInstance helper, exactArrayType.Instance, tupleType via
tupleInstance) where present.  The Any, Integer and exact integer
variants and the all-of composites are modelled from the spec: every
value is an instance of Any; an integer value is an instance of the
default integer type; an exact type's instance is the represented
value; an all-of composite's instance is an instance of every member
(for allOfValueType the members are the types of the represented
values).  A dgo value is never a dgo type here, so the meta type has
no instances (metaType.Instance requires the value to be a Type).
A variadic tuple with an empty type list cannot be constructed
(VariadicTupleType panics); its Instance is junk false.
-/

mutual

def instanceOf : DgoType → DgoValue → Bool
  | tAny, _ => true
  | tInt, vInt _ => true
  | tInt, _ => false
  | tIntExact n, vInt m => m == n
  | tIntExact _, _ => false
  | tArrayDefault, vArr _ => true
  | tArrayDefault, _ => false
  | tArraySized e mn mx, vArr (.mk s _ _) =>
    decide (mn ≤ (s.length : Int)) && decide ((s.length : Int) ≤ mx) && allInstance e s
  | tArraySized _ _ _, _ => false
  | tArrayExact (.mk s _ _), vArr (.mk s2 _ _) => sliceEquals s s2
  | tArrayExact _, _ => false
  | tTuple ts false, vArr (.mk s _ _) =>
    s.length == ts.length && pairInstanceAll ts s
  | tTuple [] true, _ => false
  | tTuple (t0 :: tr) true, vArr (.mk s _ _) =>
    decide (minOfD (tTuple (t0 :: tr) true) ≤ (s.length : Int)) &&
    decide ((s.length : Int) ≤ maxOfD (tTuple (t0 :: tr) true)) &&
    pairInstanceAll (t0 :: tr).dropLast s &&
    eachInstance (elementTypeOfD (lastD (t0 :: tr))) (s.drop tr.length)
  | tTuple _ _, _ => false
  | tMeta _, _ => false
  | tAllOfValue vs, v => allOfValsInstance vs v
  | tAllOf ts, v => allOfInstance ts v
termination_by t v => tSize t + vSize v
decreasing_by
  all_goals simp_wf
  all_goals simp only [tSize, vSize, aSize, tlSize, vlSize]
  · omega
  · omega
  · have := tlSize_dropLast_le (t0 :: tr)
    simp only [tlSize] at this
    omega
  · have h1 := elementTypeOfD_size (lastD (t0 :: tr))
    have h2 := mem_tlSize (lastD_mem (l := t0 :: tr) (by simp))
    have h3 := vlSize_drop_le tr.length s
    simp only [tlSize] at h2
    omega
  · omega
  · omega

def allInstance (e : DgoType) (s : List DgoValue) : Bool :=
  if isAnyB e then true else eachInstance e s
termination_by tSize e + vlSize s + 1
decreasing_by
  simp_wf

def eachInstance (e : DgoType) : List DgoValue → Bool
  | [] => true
  | u :: r => instanceOf e u && eachInstance e r
termination_by s => tSize e + vlSize s
decreasing_by
  all_goals simp_wf
  all_goals simp only [vlSize]
  all_goals omega

def pairInstanceAll : List DgoType → List DgoValue → Bool
  | [], _ => true
  | _ :: _, [] => false
  | t :: r, v :: s => instanceOf t v && pairInstanceAll r s
termination_by l s => tlSize l + vlSize s
decreasing_by
  all_goals simp_wf
  all_goals simp only [tlSize, vlSize]
  all_goals omega

def allOfValsInstance : List DgoValue → DgoValue → Bool
  | [], _ => true
  | u :: r, v => instanceOf (typeOf u) v && allOfValsInstance r v
termination_by l v => vlSize l + vSize v
decreasing_by
  all_goals simp_wf
  all_goals simp only [vlSize]
  · have := tSize_typeOf_le u
    omega
  · omega

def allOfInstance : List DgoType → DgoValue → Bool
  | [], _ => true
  | t :: r, v => instanceOf t v && allOfInstance r v
termination_by l v => tlSize l + vSize v
decreasing_by
  all_goals simp_wf
  all_goals simp only [tlSize]
  all_goals omega

end

/-!
Tuple views used by tupleAssignableTuple (array.go).  For a tuple type
the fixed positions are all its types (when not variadic) or all but
the last (when variadic), and the variadic element type tv is the last
type's element type.  An exact array type acts as a tuple whose
position types are the element values' own types, is never variadic,
and has no tail (its Element method returns the value type at each
index).  Non-tuple types yield the empty view; a variadic tuple with
an empty list is junk (the constructors forbid it, Go would panic).
-/

def fixedParts : DgoType → List DgoType
  | tTuple ts true => ts.dropLast
  | tTuple ts false => ts
  | tArrayExact (.mk s _ _) => s.map typeOf
  | _ => []

def tailElem : DgoType → Option DgoType
  | tTuple [] true => none
  | tTuple ts true => some (elementTypeOfD (lastD ts))
  | _ => none

theorem tlSize_map_typeOf_le : ∀ s : List DgoValue, tlSize (s.map typeOf) ≤ vlSize s
  | [] => Nat.le_refl _
  | v :: r => by
    have h1 := tlSize_map_typeOf_le r
    have h2 := tSize_typeOf_le v
    simp only [List.map_cons, tlSize, vlSize]
    omega

theorem partsSize_lt : ∀ t : DgoType, tlSize (fixedParts t) + otSize (tailElem t) < tSize t := by
  intro t
  match t with
  | tTuple [] true => simp [fixedParts, tailElem, tSize, tlSize, otSize]
  | tTuple (t0 :: tr) true =>
    have h1 := tlSize_dropLast_lastD (t0 :: tr) (by simp)
    have h2 := elementTypeOfD_size (lastD (t0 :: tr))
    simp only [fixedParts, tailElem, tSize, otSize]
    omega
  | tTuple ts false => simp [fixedParts, tailElem, tSize, otSize]
  | tArrayExact (.mk s o f) =>
    have h1 := tlSize_map_typeOf_le s
    cases o <;> simp [fixedParts, tailElem, tSize, otSize, aSize] <;> omega
  | tAny => simp [fixedParts, tailElem, tSize, otSize, tlSize]
  | tInt => simp [fixedParts, tailElem, tSize, otSize, tlSize]
  | tIntExact n => simp [fixedParts, tailElem, tSize, otSize, tlSize]
  | tArrayDefault => simp [fixedParts, tailElem, tSize, otSize, tlSize]
  | tArraySized e mn mx => simp [fixedParts, tailElem, tSize, otSize, tlSize]
  | tMeta o => simp [fixedParts, tailElem, tSize, otSize, tlSize]
  | tAllOfValue vs => simp [fixedParts, tailElem, tSize, otSize, tlSize]
  | tAllOf ts2 => simp [fixedParts, tailElem, tSize, otSize, tlSize]

/-!
The Assignable engine.  Assignable(guard, t, other) dispatches to the
DeepAssignable or Assignable method of the left type with a recursion
guard that cannot fire on finite trees; CheckAssignableTo(guard,
other, self) is the reverse-delegation hook: it consults the
AssignableTo method when the right type implements ReverseAssignable
(in dgo only the composite types do), and answers false otherwise.
The array variants are from array.go (defaultArrayType.Assignable,
sizedArrayType.DeepAssignable, exactArrayType.DeepAssignable with its
assignableToAll helper, tupleType via tupleAssignable with
tupleAssignableTuple and tupleAssignableArray), the meta variant from
meta.go.  The Any, Integer, exact integer and all-of behaviours are
modelled from the spec: Any is assignable from every type; the default
integer type is assignable from its default and exact subtypes; an
exact type is assignable exactly from an equal exact type; an all-of
composite is assignable from types every member accepts, and is
assignable to a type that accepts at least one member.  A variadic
tuple with an empty type list is junk (unreachable, Go would panic):
its array case is false.
-/

mutual

def assignable : DgoType → DgoType → Bool
  | tAny, _ => true
  | tInt, tInt => true
  | tInt, tIntExact _ => true
  | tInt, o => checkAssignableTo o tInt
  | tIntExact n, tIntExact m => m == n
  | tIntExact n, o => checkAssignableTo o (tIntExact n)
  | tArrayDefault, tArrayDefault => true
  | tArrayDefault, tTuple _ _ => true
  | tArrayDefault, tArrayExact _ => true
  | tArrayDefault, tArraySized _ _ _ => true
  | tArrayDefault, o => checkAssignableTo o tArrayDefault
  | tArraySized _ _ _, tArrayDefault => false
  | tArraySized e mn mx, tArraySized e2 mn2 mx2 =>
    decide (mn ≤ minOfD (tArraySized e2 mn2 mx2)) &&
    decide (maxOfD (tArraySized e2 mn2 mx2) ≤ mx) &&
    assignable e (elementTypeOfD (tArraySized e2 mn2 mx2))
  | tArraySized e mn mx, tArrayExact b =>
    decide (mn ≤ minOfD (tArrayExact b)) &&
    decide (maxOfD (tArrayExact b) ≤ mx) &&
    assignable e (elementTypeOfD (tArrayExact b))
  | tArraySized e mn mx, tTuple ts2 v2 =>
    decide (mn ≤ minOfD (tTuple ts2 v2)) &&
    decide (maxOfD (tTuple ts2 v2) ≤ mx) &&
    assignable e (elementTypeOfD (tTuple ts2 v2))
  | tArraySized e mn mx, o => checkAssignableTo o (tArraySized e mn mx)
  | tArrayExact _, tArrayDefault => false
  | tArrayExact (.mk s _ _), tArraySized e2 mn2 mx2 =>
    (mn2 == (s.length : Int)) && (mx2 == (s.length : Int)) && assignableToAllB e2 s
  | tArrayExact (.mk s _ _), tArrayExact (.mk s2 _ _) => sliceEquals s s2
  | tArrayExact a, tTuple ts2 v2 =>
    tupleAssignableTupleB (tArrayExact a) (tTuple ts2 v2)
  | tArrayExact a, o => checkAssignableTo o (tArrayExact a)
  | tTuple _ _, tArrayDefault => false
  | tTuple ts v, tArrayExact b => instanceOf (tTuple ts v) (vArr b)
  | tTuple ts v, tTuple ts2 v2 => tupleAssignableTupleB (tTuple ts v) (tTuple ts2 v2)
  | tTuple [] true, tArraySized _ _ _ => false
  | tTuple ts false, tArraySized e2 mn2 mx2 =>
    decide (minOfD (tTuple ts false) ≤ mn2) &&
    decide (mx2 ≤ maxOfD (tTuple ts false)) &&
    tupleArrayFixedAll ts e2
  | tTuple (t0 :: tr) true, tArraySized e2 mn2 mx2 =>
    decide (minOfD (tTuple (t0 :: tr) true) ≤ mn2) &&
    decide (mx2 ≤ maxOfD (tTuple (t0 :: tr) true)) &&
    (tupleArrayFixedAll (t0 :: tr).dropLast e2 &&
      assignable (elementTypeOfD (lastD (t0 :: tr))) e2)
  | tTuple ts v, o => checkAssignableTo o (tTuple ts v)
  | tMeta none, tMeta none => true
  | tMeta none, tMeta (some _) => false
  | tMeta (some t), tMeta (some t2) => typeEquals t t2
  | tMeta (some _), tMeta none => false
  | tMeta op, o => checkAssignableTo o (tMeta op)
  | tAllOfValue vs, o => allOfValsAssignable vs o
  | tAllOf ts, o => allOfAssignable ts o
termination_by t o => 2 * (tSize t + tSize o)  + 1
decreasing_by
  all_goals simp_wf
  all_goals simp only [tSize, tlSize, otSize, aSize, vlSize]
  all_goals try omega
  · have h1 := elementTypeOfD_size (tArraySized e2 mn2 mx2)
    simp only [tSize] at h1
    omega
  · have h1 := elementTypeOfD_size (tArrayExact b)
    simp only [tSize] at h1
    omega
  · have h1 := elementTypeOfD_size (tTuple ts2 v2)
    simp only [tSize] at h1
    omega
  · have h1 := tlSize_dropLast_le (t0 :: tr)
    simp only [tlSize] at h1
    omega
  · have h1 := elementTypeOfD_size (lastD (t0 :: tr))
    have h2 := mem_tlSize (lastD_mem (l := t0 :: tr) (by simp))
    simp only [tlSize] at h2
    omega

def tupleAssignableTupleB (t o : DgoType) : Bool :=
  decide (minOfD t ≤ minOfD o) && decide (maxOfD o ≤ maxOfD t) &&
  posAll (fixedParts t) (tailElem t) (fixedParts o) (tailElem o)
termination_by 2 * (tSize t + tSize o)
decreasing_by
  simp_wf
  have h1 := partsSize_lt t
  have h2 := partsSize_lt o
  omega

def posAll : List DgoType → Option DgoType → List DgoType → Option DgoType → Bool
  | [], _, [], _ => true
  | te :: tr, tv, oe :: orr, ov => assignable te oe && posAll tr tv orr ov
  | _ :: _, _, [], none => false
  | te :: tr, tv, [], some ox => assignable te ox && posAll tr tv [] (some ox)
  | [], none, _ :: _, _ => false
  | [], some tx, oe :: orr, ov => assignable tx oe && posAll [] (some tx) orr ov
termination_by tf tv of ov => 2 * (tlSize tf + otSize tv + tlSize of + otSize ov)
decreasing_by
  all_goals simp_wf
  all_goals simp only [tlSize, otSize]
  all_goals omega

def assignableToAllB (e : DgoType) : List DgoValue → Bool
  | [] => true
  | v :: r => assignable (typeOf v) e && assignableToAllB e r
termination_by s => 2 * (tSize e + vlSize s)
decreasing_by
  all_goals simp_wf
  all_goals simp only [vlSize]
  · have h1 := tSize_typeOf_le v
    omega
  · omega

def tupleArrayFixedAll : List DgoType → DgoType → Bool
  | [], _ => true
  | t :: r, e => assignable t e && tupleArrayFixedAll r e
termination_by l e => 2 * (tlSize l + tSize e)
decreasing_by
  all_goals simp_wf
  all_goals simp only [tlSize]
  all_goals omega

def allOfValsAssignable : List DgoValue → DgoType → Bool
  | [], _ => true
  | u :: r, o => assignable (typeOf u) o && allOfValsAssignable r o
termination_by l o => 2 * (vlSize l + tSize o)
decreasing_by
  all_goals simp_wf
  all_goals simp only [vlSize]
  · have h1 := tSize_typeOf_le u
    omega
  · omega

def allOfAssignable : List DgoType → DgoType → Bool
  | [], _ => true
  | t :: r, o => assignable t o && allOfAssignable r o
termination_by l o => 2 * (tlSize l + tSize o)
decreasing_by
  all_goals simp_wf
  all_goals simp only [tlSize]
  all_goals omega

def checkAssignableTo (o self : DgoType) : Bool :=
  match o with
  | tAllOfValue vs => anyValAssignableTo self vs
  | tAllOf ts => anyTypeAssignableTo self ts
  | _ => false
termination_by 2 * (tSize o + tSize self)
decreasing_by
  all_goals simp_wf
  all_goals simp only [tSize]
  all_goals omega

def anyValAssignableTo (self : DgoType) : List DgoValue → Bool
  | [] => false
  | w :: r => assignable self (typeOf w) || anyValAssignableTo self r
termination_by s => 2 * (tSize self + vlSize s)
decreasing_by
  all_goals simp_wf
  all_goals simp only [vlSize]
  all_goals try omega
  have h1 := tSize_typeOf_le v
  omega

def anyTypeAssignableTo (self : DgoType) : List DgoType → Bool
  | [] => false
  | t :: r => assignable self t || anyTypeAssignableTo self r
termination_by l => 2 * (tSize self + tlSize l)
decreasing_by
  all_goals simp_wf
  all_goals simp only [tlSize]
  all_goals omega

end

/-!
Errors.  The Go code panics with structured errors; the spec sorts
them into kinds.  frozenMutation carries the operation name that
frozenArray(f) in array.go embeds in its message; illegalSize carries
the offending size from IllegalSize(t, sz); illegalArgument covers the
plain constructor-shape errors (the IllegalArgument kind of the spec);
typeAssert covers the SetType argument error.
-/

inductive DgoError : Type where
  | frozenMutation : String → DgoError
  | illegalSize : Int → DgoError
  | illegalAssignment : DgoError
  | illegalArgument : String → DgoError
  | typeAssert : String → DgoError
  deriving Repr, DecidableEq

/-!
Freeze (array.go).  Freeze returns at once on a frozen array;
otherwise it sets the frozen flag and freezes every freezable element
in place.  Integers are not freezable.  The in-place Go mutation is
rendered as a pure transformation of the tree.
-/

mutual

def freezeVal : DgoValue → DgoValue
  | vInt n => vInt n
  | vArr a => vArr (freezeArr a)
termination_by v => vSize v
decreasing_by
  simp_wf
  simp [vSize]

def freezeArr : ArrayVal → ArrayVal
  | .mk s t true => .mk s t true
  | .mk s t false => .mk (freezeList s) t true
termination_by a => aSize a
decreasing_by
  simp_wf
  simp [aSize]
  omega

def freezeList : List DgoValue → List DgoValue
  | [] => []
  | v :: r => freezeVal v :: freezeList r
termination_by s => vlSize s
decreasing_by
  all_goals simp_wf
  all_goals simp [vlSize]
  all_goals omega

end

/-- The types that satisfy the dgo.ArrayType interface: the default
array type, sized array types, exact array types and tuples. -/
def isArrayTypeB : DgoType → Bool
  | tArrayDefault => true
  | tArraySized _ _ _ => true
  | tArrayExact _ => true
  | tTuple _ _ => true
  | _ => false

/-- assertType (array.go): with no declared type every element is
accepted; otherwise, when the position is at or past the current
length, reject if the grown size would exceed the declared maximum;
then check the element against the position type (position-specific
for tuples, with the variadic tail governing positions past the fixed
prefix) or the declared element type.  A tuple position out of range
would panic in Go; the junk default tAny stands in. -/
def assertTypeE (v : ArrayVal) (e : DgoValue) (pos : Int) : Option DgoError :=
  match v.typ with
  | none => none
  | some t =>
    let sz : Int := v.slice.length
    if pos ≥ sz ∧ sz + 1 > maxOfD t then some (.illegalSize (sz + 1))
    else
      let et :=
        match t with
        | tTuple ts true =>
          if pos < (ts.length : Int) - 1 then ts.getD pos.toNat tAny
          else elementTypeOfD (lastD ts)
        | tTuple ts false => ts.getD pos.toNat tAny
        | _ => elementTypeOfD t
      if instanceOf et e then none else some .illegalAssignment

/-- assertTypes (array.go): nothing to check without a declared type
or when nothing is added; reject if the grown size would exceed the
declared maximum; then check every added element against the declared
element type, failing at the first mismatch. -/
def assertTypesE (v : ArrayVal) (vs : List DgoValue) : Option DgoError :=
  match v.typ with
  | none => none
  | some t =>
    if vs.length = 0 then none
    else if ((v.slice.length : Int) + vs.length) > maxOfD t then
      some (.illegalSize ((v.slice.length : Int) + vs.length))
    else
      match vs.find? (fun e => !instanceOf (elementTypeOfD t) e) with
      | some _ => some .illegalAssignment
      | none => none

/-- array.Add: fail fast on frozen, check the appended element, append. -/
def addOp (v : ArrayVal) (x : DgoValue) : Option DgoError × ArrayVal :=
  if v.frozen then (some (.frozenMutation "Add"), v)
  else
    match assertTypeE v x (v.slice.length : Int) with
    | some err => (some err, v)
    | none => (none, .mk (v.slice ++ [x]) v.typ v.frozen)

/-- array.AddAll: fail fast on frozen, check the added values, append. -/
def addAllOp (v : ArrayVal) (w : ArrayVal) : Option DgoError × ArrayVal :=
  if v.frozen then (some (.frozenMutation "AddAll"), v)
  else
    match assertTypesE v w.slice with
    | some err => (some err, v)
    | none => (none, .mk (v.slice ++ w.slice) v.typ v.frozen)

/-- array.AddValues: fail fast on frozen, check, append. -/
def addValuesOp (v : ArrayVal) (vs : List DgoValue) : Option DgoError × ArrayVal :=
  if v.frozen then (some (.frozenMutation "AddValues"), v)
  else
    match assertTypesE v vs with
    | some err => (some err, v)
    | none => (none, .mk (v.slice ++ vs) v.typ v.frozen)

/-- array.Insert: fail fast on frozen, check at the position, splice in. -/
def insertOp (v : ArrayVal) (pos : Int) (x : DgoValue) : Option DgoError × ArrayVal :=
  if v.frozen then (some (.frozenMutation "Insert"), v)
  else
    match assertTypeE v x pos with
    | some err => (some err, v)
    | none => (none, .mk (v.slice.take pos.toNat ++ x :: v.slice.drop pos.toNat) v.typ v.frozen)

/-- array.Set: fail fast on frozen, check at the position, replace and
return the previous element (a Go index panic for an out-of-range
position is junk here). -/
def setOp (v : ArrayVal) (pos : Int) (x : DgoValue) :
    Option DgoError × Option DgoValue × ArrayVal :=
  if v.frozen then (some (.frozenMutation "Set"), none, v)
  else
    match assertTypeE v x pos with
    | some err => (some err, none, v)
    | none =>
      (none, some (v.slice.getD pos.toNat (vInt 0)),
        .mk (v.slice.set pos.toNat x) v.typ v.frozen)

/-- array.removePos: out-of-range positions return nil and leave the
array untouched; in range, removal that would drop below the declared
minimum panics with IllegalSize, otherwise the element is removed and
returned. -/
def removePosF (v : ArrayVal) (pos : Int) : Option DgoError × Option DgoValue × ArrayVal :=
  if 0 ≤ pos ∧ pos < (v.slice.length : Int) then
    let newLen : Int := (v.slice.length : Int) - 1
    let ok : Option DgoError × Option DgoValue × ArrayVal :=
      (none, some (v.slice.getD pos.toNat (vInt 0)),
        .mk (v.slice.take pos.toNat ++ v.slice.drop (pos.toNat + 1)) v.typ v.frozen)
    match v.typ with
    | some t => if minOfD t > newLen then (some (.illegalSize newLen), none, v) else ok
    | none => ok
  else (none, none, v)

/-- array.Remove: fail fast on frozen, then removePos. -/
def removeOp (v : ArrayVal) (pos : Int) : Option DgoError × Option DgoValue × ArrayVal :=
  if v.frozen then (some (.frozenMutation "Remove"), none, v)
  else removePosF v pos

/-- array.IndexOf: index of the first element the probe equals, else -1. -/
def indexOfF (v : ArrayVal) (x : DgoValue) : Int :=
  match v.slice.findIdx? (fun u => equalsVal x u) with
  | some i => (i : Int)
  | none => -1

/-- array.RemoveValue: fail fast on frozen; remove at the probe's
index, reporting whether something was removed. -/
def removeValueOp (v : ArrayVal) (x : DgoValue) : Option DgoError × Bool × ArrayVal :=
  if v.frozen then (some (.frozenMutation "RemoveValue"), false, v)
  else
    match removePosF v (indexOfF v x) with
    | (err, r, v2) => (err, r.isSome, v2)

/-- array.Pop: fail fast on frozen; remove and return the last
element, or report false on an empty array. -/
def popOp (v : ArrayVal) : Option DgoError × Option DgoValue × Bool × ArrayVal :=
  if v.frozen then (some (.frozenMutation "Pop"), none, false, v)
  else
    if 0 ≤ (v.slice.length : Int) - 1 then
      match removePosF v ((v.slice.length : Int) - 1) with
      | (err, r, v2) => (err, r, true, v2)
    else (none, none, false, v)

/-- array.SetType: fail fast on frozen; a nil argument clears the
declared type; a non-array type argument is rejected; an array type is
installed only when the array is an instance of it. -/
def setTypeOp (v : ArrayVal) (ti : Option DgoType) : Option DgoError × ArrayVal :=
  if v.frozen then (some (.frozenMutation "SetType"), v)
  else
    match ti with
    | none => (none, .mk v.slice none v.frozen)
    | some t =>
      if isArrayTypeB t then
        if instanceOf t (vArr v) then (none, .mk v.slice (some t) v.frozen)
        else (some .illegalAssignment, v)
      else (some (.typeAssert "Array.SetType: argument does not evaluate to an ArrayType"), v)

/-- array.Slice: a frozen array sliced in full is returned as is;
otherwise the sub-slice from i to j (exclusive) is taken, copied when
the source is not frozen, and wrapped without a declared type,
preserving the frozen flag. -/
def sliceOp (v : ArrayVal) (i j : Nat) : ArrayVal :=
  if v.frozen = true ∧ i = 0 ∧ j = v.slice.length then v
  else .mk ((v.slice.drop i).take (j - i)) none v.frozen

/-- newTupleType (array.go): the empty list yields DefaultTupleType
(which is not variadic), otherwise the types are wrapped as given. -/
def newTupleTypeF (ts : List DgoType) (variadic : Bool) : DgoType :=
  if ts.length = 0 then tTuple [] false
  else tTuple ts variadic

/-- VariadicTupleType (array.go): panics on an empty type list, panics
when the last type is not an ArrayType, and otherwise builds the
variadic tuple over the given types. -/
def variadicTupleType (ts : List DgoType) : Except DgoError DgoType :=
  if ts.length = 0 then
    .error (.illegalArgument "a variadic tuple must have at least one element")
  else if !isArrayTypeB (lastD ts) then
    .error (.illegalArgument "the last element of a variadic tuple must be an ArrayType")
  else .ok (newTupleTypeF ts true)

/-- Type of a type (array.go Type methods and metaType.Type in
meta.go): every non-meta type t answers the meta type over t; a meta
type answers the meta type with nil operand, which is its own type. -/
def typeOfType : DgoType → DgoType
  | tMeta _ => tMeta none
  | t => tMeta (some t)

/-!
A reference-level model of Go slice storage for array.Slice.  A heap
is a list of backing cells; an array reference designates a cell, an
offset, a length and the frozen flag.  sliceRefOp mirrors
array.Slice: a frozen source hands out a view into the same cell
(storage is shared); a non-frozen source copies the segment into a
fresh cell.  setRefOp mirrors array.Set writing through the
reference into the backing cell.
-/

structure SpineHeap : Type where
  cells : List (List DgoValue)

structure ArrRef : Type where
  cell : Nat
  off : Nat
  len : Nat
  frozen : Bool

def readRef (h : SpineHeap) (r : ArrRef) : List DgoValue :=
  ((h.cells.getD r.cell []).drop r.off).take r.len

def sliceRefOp (h : SpineHeap) (r : ArrRef) (i j : Nat) : SpineHeap × ArrRef :=
  if r.frozen then (h, ⟨r.cell, r.off + i, j - i, true⟩)
  else
    (⟨h.cells ++ [((readRef h r).drop i).take (j - i)]⟩,
      ⟨h.cells.length, 0, j - i, false⟩)

def setRefOp (h : SpineHeap) (r : ArrRef) (pos : Nat) (x : DgoValue) : SpineHeap :=
  ⟨h.cells.set r.cell ((h.cells.getD r.cell []).set (r.off + pos) x)⟩

/-! Helper lemmas used by the claim theorems. -/

theorem frozen_freezeArr : ∀ a : ArrayVal, (freezeArr a).frozen = true := by
  intro a
  match a with
  | .mk s t true => simp [freezeArr, ArrayVal.frozen]
  | .mk s t false => simp [freezeArr, ArrayVal.frozen]

theorem eachInstance_all (e : DgoType) :
    ∀ s : List DgoValue, eachInstance e s = true ↔ ∀ u ∈ s, instanceOf e u = true
  | [] => by simp [eachInstance]
  | v :: r => by
    have ih := eachInstance_all e r
    simp [eachInstance, Bool.and_eq_true, ih, List.forall_mem_cons]

theorem isAnyB_eq_true : ∀ e : DgoType, isAnyB e = true → e = tAny := by
  intro e h
  cases e <;> simp [isAnyB] at h ⊢

theorem allInstance_all (e : DgoType) (s : List DgoValue) :
    allInstance e s = true ↔ ∀ u ∈ s, instanceOf e u = true := by
  by_cases h : isAnyB e = true
  · have he := isAnyB_eq_true e h
    subst he
    simp [allInstance, isAnyB, instanceOf]
  · simp only [allInstance]
    rw [if_neg (by simpa using h)]
    exact eachInstance_all e s

/-- C9: repeated application of Type terminates in the meta-of-meta
fixed point: the type of the meta type over any operand is the meta
type with nil operand, the type of the nil-operand meta type is
itself, and three applications of Type reach the fixed point from any
type. -/
theorem meta_type_fixed_point :
    (∀ t : DgoType, typeOfType (tMeta (some t)) = tMeta none) ∧
    typeOfType (tMeta none) = tMeta none ∧
    (∀ t : DgoType, typeOfType (typeOfType (typeOfType t)) = tMeta none) := by
  refine ⟨fun t => rfl, rfl, fun t => ?_⟩
  cases t <;> rfl

/-- C6: Freeze is idempotent and recursive: freezing a frozen array
changes nothing (so freeze after freeze equals freeze), the result is
always frozen, and freezing a non-frozen array sets the flag and
freezes every element. -/
theorem freeze_idempotent_recursive :
    ∀ a : ArrayVal,
      freezeArr (freezeArr a) = freezeArr a ∧
      (freezeArr a).frozen = true ∧
      (a.frozen = false → freezeArr a = .mk (freezeList a.slice) a.typ true) := by
  intro a
  match a with
  | .mk s t true =>
    refine ⟨by simp [freezeArr], frozen_freezeArr _, ?_⟩
    intro h
    simp [ArrayVal.frozen] at h
  | .mk s t false =>
    refine ⟨?_, frozen_freezeArr _, ?_⟩
    · simp [freezeArr]
    · intro _
      simp [freezeArr, ArrayVal.slice, ArrayVal.typ]

/-- Witness for C6 at a concrete non-frozen nested array. -/
theorem freeze_idempotent_recursive_witness :
    (ArrayVal.mk [vArr (.mk [vInt 1] none false)] none false).frozen = false ∧
    freezeArr (.mk [vArr (.mk [vInt 1] none false)] none false) =
      .mk (freezeList [vArr (.mk [vInt 1] none false)]) none true :=
  ⟨rfl, (freeze_idempotent_recursive _).2.2 rfl⟩

/-- C5: after Freeze, every mutating operation (Add, AddAll,
AddValues, Insert, Set, Remove, RemoveValue, Pop, SetType) fails with
the frozen-mutation error naming the operation, and the array is
returned unchanged. -/
theorem frozen_array_mutations_fail :
    ∀ (a w : ArrayVal) (x : DgoValue) (vs : List DgoValue) (pos : Int) (ti : Option DgoType),
      addOp (freezeArr a) x = (some (.frozenMutation "Add"), freezeArr a) ∧
      addAllOp (freezeArr a) w = (some (.frozenMutation "AddAll"), freezeArr a) ∧
      addValuesOp (freezeArr a) vs = (some (.frozenMutation "AddValues"), freezeArr a) ∧
      insertOp (freezeArr a) pos x = (some (.frozenMutation "Insert"), freezeArr a) ∧
      setOp (freezeArr a) pos x = (some (.frozenMutation "Set"), none, freezeArr a) ∧
      removeOp (freezeArr a) pos = (some (.frozenMutation "Remove"), none, freezeArr a) ∧
      removeValueOp (freezeArr a) x = (some (.frozenMutation "RemoveValue"), false, freezeArr a) ∧
      popOp (freezeArr a) = (some (.frozenMutation "Pop"), none, false, freezeArr a) ∧
      setTypeOp (freezeArr a) ti = (some (.frozenMutation "SetType"), freezeArr a) := by
  intro a w x vs pos ti
  have h := frozen_freezeArr a
  refine ⟨?_, ?_, ?_, ?_, ?_, ?_, ?_, ?_, ?_⟩ <;>
    simp [addOp, addAllOp, addValuesOp, insertOp, setOp, removeOp, removeValueOp,
      popOp, setTypeOp, h]

/-- C7: the variadic tuple constructor fails with an IllegalArgument
error exactly when the type list is empty or its last element is not
an array type, and otherwise returns the variadic tuple over the
given types. -/
theorem variadic_tuple_ctor :
    ∀ ts : List DgoType,
      (ts = [] → variadicTupleType ts =
        .error (.illegalArgument "a variadic tuple must have at least one element")) ∧
      (ts ≠ [] → isArrayTypeB (lastD ts) = false → variadicTupleType ts =
        .error (.illegalArgument "the last element of a variadic tuple must be an ArrayType")) ∧
      (ts ≠ [] → isArrayTypeB (lastD ts) = true →
        variadicTupleType ts = .ok (tTuple ts true)) ∧
      ((∃ e, variadicTupleType ts = .error e) ↔
        (ts = [] ∨ isArrayTypeB (lastD ts) = false)) := by
  intro ts
  by_cases h0 : ts = []
  · subst h0
    refine ⟨fun _ => by simp [variadicTupleType], fun h => absurd rfl h, fun h => absurd rfl h, ?_⟩
    simp [variadicTupleType]
  · have hlen : ts.length ≠ 0 := fun h => h0 (List.length_eq_zero.mp h)
    by_cases h1 : isArrayTypeB (lastD ts) = true
    · refine ⟨fun h => absurd h h0, fun _ h => by simp [h] at h1, fun _ _ => ?_, ?_⟩
      · simp [variadicTupleType, hlen, h1, newTupleTypeF]
      · simp [variadicTupleType, hlen, h1, newTupleTypeF, h0]
    · have h1f : isArrayTypeB (lastD ts) = false := by simpa using h1
      refine ⟨fun h => absurd h h0, fun _ _ => ?_, fun _ h => by simp [h] at h1, ?_⟩
      · simp [variadicTupleType, hlen, h1f]
      · simp [variadicTupleType, hlen, h1f]

/-- Witness for C7 on a one-element list ending in an array type, and
on a list whose last element is not an array type. -/
theorem variadic_tuple_ctor_witness :
    ([tArrayDefault] : List DgoType) ≠ [] ∧
    isArrayTypeB (lastD [tArrayDefault]) = true ∧
    variadicTupleType [tArrayDefault] = .ok (tTuple [tArrayDefault] true) ∧
    variadicTupleType [tInt] =
      .error (.illegalArgument "the last element of a variadic tuple must be an ArrayType") :=
  ⟨by simp, rfl, (variadic_tuple_ctor _).2.2.1 (by simp) rfl,
    (variadic_tuple_ctor _).2.1 (by simp) rfl⟩

theorem findIdx_none_of_all {p : DgoValue → Bool} :
    ∀ {s : List DgoValue}, (∀ u ∈ s, p u = false) → s.findIdx? p = none
  | [], _ => rfl
  | v :: r, h => by
    have h1 : p v = false := h v (List.mem_cons_self _ _)
    have h2 := findIdx_none_of_all (fun u hu => h u (List.mem_cons_of_mem _ hu))
    simp [List.findIdx?_cons, h1, h2]

theorem getD_set_ne {α : Type} (l : List α) (m n : Nat) (x d : α) (h : m ≠ n) :
    (l.set m x).getD n d = l.getD n d := by
  simp [List.getD_eq_getElem?_getD, List.getElem?_set_ne h]

/-- C10: on a non-frozen array, Remove at an out-of-range position
returns nil and leaves the array unchanged, and RemoveValue of an
absent value returns false and changes nothing. -/
theorem remove_out_of_range_safe :
    ∀ (a : ArrayVal) (pos : Int) (x : DgoValue),
      a.frozen = false →
      ((pos < 0 ∨ (a.slice.length : Int) ≤ pos) → removeOp a pos = (none, none, a)) ∧
      ((∀ u ∈ a.slice, equalsVal x u = false) → removeValueOp a x = (none, false, a)) := by
  intro a pos x hf
  constructor
  · intro hp
    have hcond : ¬(0 ≤ pos ∧ pos < (a.slice.length : Int)) := by omega
    simp [removeOp, hf, removePosF, hcond]
  · intro hall
    have hidx : indexOfF a x = -1 := by
      simp [indexOfF, findIdx_none_of_all hall]
    have hcond : ¬((0 : Int) ≤ -1 ∧ (-1 : Int) < (a.slice.length : Int)) := by omega
    simp [removeValueOp, hf, hidx, removePosF, hcond]

/-- Witness for C10 on a one-element array, position 5 and a probe
value that is not present. -/
theorem remove_out_of_range_safe_witness :
    (ArrayVal.mk [vInt 1] none false).frozen = false ∧
    removeOp (.mk [vInt 1] none false) 5 = (none, none, .mk [vInt 1] none false) ∧
    removeValueOp (.mk [vInt 1] none false) (vInt 2) =
      (none, false, .mk [vInt 1] none false) :=
  ⟨rfl,
    (remove_out_of_range_safe (.mk [vInt 1] none false) 5 (vInt 2) rfl).1
      (Or.inr (by simp [ArrayVal.slice])),
    (remove_out_of_range_safe (.mk [vInt 1] none false) 5 (vInt 2) rfl).2
      (by
        intro u hu
        simp [ArrayVal.slice] at hu
        subst hu
        simp [equalsVal])⟩

/-- C8: Slice returns the elements from i to j-1 with the frozen flag
of the source; in the storage model of Go slices the result shares the
source's backing cell exactly when the source is frozen (a non-frozen
source copies the segment into a fresh cell), so a later Set through a
non-frozen source never changes a previously taken slice. -/
theorem slice_contents_and_isolation :
    (∀ (a : ArrayVal) (i j : Nat), i ≤ j → j ≤ a.slice.length →
      (sliceOp a i j).slice = (a.slice.drop i).take (j - i) ∧
      (sliceOp a i j).frozen = a.frozen) ∧
    (∀ (h : SpineHeap) (r : ArrRef) (i j : Nat), r.cell < h.cells.length →
      ((sliceRefOp h r i j).2.cell = r.cell ↔ r.frozen = true)) ∧
    (∀ (h : SpineHeap) (r : ArrRef) (i j pos : Nat) (x : DgoValue),
      r.cell < h.cells.length → r.frozen = false →
      readRef (setRefOp (sliceRefOp h r i j).1 r pos x) (sliceRefOp h r i j).2 =
        readRef (sliceRefOp h r i j).1 (sliceRefOp h r i j).2) := by
  refine ⟨?_, ?_, ?_⟩
  · intro a i j h1 h2
    constructor
    · unfold sliceOp
      split
      · next hc =>
        rcases hc with ⟨hf, hi, hj⟩
        subst hi
        subst hj
        simp
      · simp [ArrayVal.slice]
    · unfold sliceOp
      split
      · rfl
      · simp [ArrayVal.frozen]
  · intro h r i j hr
    by_cases hf : r.frozen = true
    · simp [sliceRefOp, hf]
    · have hf2 : r.frozen = false := by simpa using hf
      simp [sliceRefOp, hf2]
      omega
  · intro h r i j pos x hr hfr
    simp only [sliceRefOp, hfr, Bool.false_eq_true, if_false]
    simp only [setRefOp, readRef]
    rw [getD_set_ne]
    omega

/-- Witness for C8 on a two-element non-frozen array and a one-cell
heap: the slice contents, the fresh cell, and the unchanged read after
a Set through the source. -/
theorem slice_contents_and_isolation_witness :
    ((0 : Nat) ≤ 1 ∧ (1 : Nat) ≤ (ArrayVal.mk [vInt 1, vInt 2] none false).slice.length) ∧
    (sliceOp (.mk [vInt 1, vInt 2] none false) 0 1).slice =
      (([vInt 1, vInt 2].drop 0).take (1 - 0)) ∧
    (sliceOp (.mk [vInt 1, vInt 2] none false) 0 1).frozen = false ∧
    ((sliceRefOp ⟨[[vInt 1, vInt 2]]⟩ ⟨0, 0, 2, false⟩ 0 1).2.cell = 0 ↔
      (false : Bool) = true) ∧
    readRef (setRefOp (sliceRefOp ⟨[[vInt 1, vInt 2]]⟩ ⟨0, 0, 2, false⟩ 0 1).1
        ⟨0, 0, 2, false⟩ 0 (vInt 9)) (sliceRefOp ⟨[[vInt 1, vInt 2]]⟩ ⟨0, 0, 2, false⟩ 0 1).2 =
      readRef (sliceRefOp ⟨[[vInt 1, vInt 2]]⟩ ⟨0, 0, 2, false⟩ 0 1).1
        (sliceRefOp ⟨[[vInt 1, vInt 2]]⟩ ⟨0, 0, 2, false⟩ 0 1).2 := by
  refine ⟨⟨by decide, by simp [ArrayVal.slice]⟩, ?_, ?_, ?_, ?_⟩
  · exact (slice_contents_and_isolation.1 (.mk [vInt 1, vInt 2] none false) 0 1
      (by decide) (by simp [ArrayVal.slice])).1
  · exact (slice_contents_and_isolation.1 (.mk [vInt 1, vInt 2] none false) 0 1
      (by decide) (by simp [ArrayVal.slice])).2
  · exact slice_contents_and_isolation.2.1 ⟨[[vInt 1, vInt 2]]⟩ ⟨0, 0, 2, false⟩ 0 1
      (by simp)
  · exact slice_contents_and_isolation.2.2 ⟨[[vInt 1, vInt 2]]⟩ ⟨0, 0, 2, false⟩ 0 1 0
      (vInt 9) (by simp) rfl

/-- C4 counterexample: an array carrying a declared sized type it no
longer satisfies (reachable in Go, e.g. through Reject, which keeps
the declared type while filtering elements below its minimum, or
through Insert, which skips the size check for interior positions):
its Type is the declared type, and the array is not an instance of
it. -/
theorem array_type_round_trip_cex :
    instanceOf (typeOf (vArr (.mk [vInt 1] (some (tArraySized tInt 2 2)) false)))
      (vArr (.mk [vInt 1] (some (tArraySized tInt 2 2)) false)) = false := by
  simp [typeOf, ArrayVal.typ, instanceOf, ArrayVal.slice]

/-- C4 (amended): for an array without a declared type, Type yields the
exact array type backed by the array, whose instance check accepts the
array itself; for an array with a declared type, Type returns that
declared type, and the round trip holds whenever the array currently
satisfies its declared type (which construction enforces, though some
mutations can break it). -/
theorem array_type_round_trip :
    ∀ a : ArrayVal,
      (a.typ = none → instanceOf (typeOf (vArr a)) (vArr a) = true) ∧
      (∀ t, a.typ = some t →
        typeOf (vArr a) = t ∧
        (instanceOf t (vArr a) = true → instanceOf (typeOf (vArr a)) (vArr a) = true)) := by
  intro a
  constructor
  · intro h
    match a, h with
    | .mk s none f, _ =>
      simp [typeOf, ArrayVal.typ, instanceOf, sliceEquals_refl]
  · intro t h
    match a, h with
    | .mk s (some t) f, rfl =>
      refine ⟨by simp [typeOf, ArrayVal.typ], ?_⟩
      intro h2
      simpa [typeOf, ArrayVal.typ] using h2

/-- Witness for C4 on an array without a declared type and on an array
that satisfies its declared default array type. -/
theorem array_type_round_trip_witness :
    (ArrayVal.mk [vInt 1] none false).typ = none ∧
    instanceOf (typeOf (vArr (.mk [vInt 1] none false))) (vArr (.mk [vInt 1] none false)) = true ∧
    typeOf (vArr (.mk [vInt 2] (some tArrayDefault) false)) = tArrayDefault ∧
    instanceOf (typeOf (vArr (.mk [vInt 2] (some tArrayDefault) false)))
      (vArr (.mk [vInt 2] (some tArrayDefault) false)) = true :=
  ⟨rfl,
    (array_type_round_trip _).1 rfl,
    ((array_type_round_trip (.mk [vInt 2] (some tArrayDefault) false)).2 tArrayDefault rfl).1,
    ((array_type_round_trip (.mk [vInt 2] (some tArrayDefault) false)).2 tArrayDefault rfl).2
      (by simp [instanceOf])⟩

/-- C1 counterexample: the exact type of the empty array is assignable
from the sized array type with element type Any and bounds 0..0, a
type that does not equal it (both are constructible through the public
factories: Values of no values, and ArrayType 0 0). -/
theorem exact_array_assignable_cex :
    assignable (tArrayExact (.mk [] none true)) (tArraySized tAny 0 0) = true ∧
    typeEquals (tArrayExact (.mk [] none true)) (tArraySized tAny 0 0) = false := by
  constructor
  · simp [assignable, assignableToAllB]
  · simp [typeEquals]

/-- C1 (amended): an exact array type is assignable from every type
that equals it (but also from some non-equal array types whose
instances coincide with the represented array, such as a matching
sized array type); its instance check accepts exactly the values that
equal the represented array. -/
theorem exact_array_assignable_instance :
    ∀ (a : ArrayVal) (T : DgoType) (v : DgoValue),
      (typeEquals (tArrayExact a) T = true → assignable (tArrayExact a) T = true) ∧
      instanceOf (tArrayExact a) v = equalsVal (vArr a) v := by
  intro a T v
  constructor
  · intro h
    match a, T with
    | .mk s o f, tArrayExact (.mk s2 o2 f2) =>
      simp only [typeEquals] at h
      simp [assignable, h]
    | .mk s o f, tAny => simp [typeEquals] at h
    | .mk s o f, tInt => simp [typeEquals] at h
    | .mk s o f, tIntExact n => simp [typeEquals] at h
    | .mk s o f, tArrayDefault => simp [typeEquals] at h
    | .mk s o f, tArraySized e mn mx => simp [typeEquals] at h
    | .mk s o f, tTuple ts b => simp [typeEquals] at h
    | .mk s o f, tMeta op => simp [typeEquals] at h
    | .mk s o f, tAllOfValue vs => simp [typeEquals] at h
    | .mk s o f, tAllOf ts => simp [typeEquals] at h
  · match a, v with
    | .mk s o f, vInt n => simp [instanceOf, equalsVal]
    | .mk s o f, vArr (.mk s2 o2 f2) => simp [instanceOf, equalsVal, ArrayVal.slice]

/-- Witness for C1: two equal exact array types over the one-element
array of the integer 1 (differing only in the ignored frozen flag), and
the instance check against an equal array value. -/
theorem exact_array_assignable_instance_witness :
    typeEquals (tArrayExact (.mk [vInt 1] none true)) (tArrayExact (.mk [vInt 1] none false)) = true ∧
    assignable (tArrayExact (.mk [vInt 1] none true)) (tArrayExact (.mk [vInt 1] none false)) = true ∧
    instanceOf (tArrayExact (.mk [vInt 1] none true)) (vArr (.mk [vInt 1] none false)) =
      equalsVal (vArr (.mk [vInt 1] none true)) (vArr (.mk [vInt 1] none false)) :=
  ⟨by simp [typeEquals, sliceEquals, equalsVal],
    (exact_array_assignable_instance (.mk [vInt 1] none true)
      (tArrayExact (.mk [vInt 1] none false)) (vInt 0)).1
      (by simp [typeEquals, sliceEquals, equalsVal]),
    (exact_array_assignable_instance (.mk [vInt 1] none true)
      (tArrayExact (.mk [vInt 1] none false)) (vArr (.mk [vInt 1] none false))).2⟩

/-- The formula of claim C2 in the spec's wording: min ≤ m and M ≤ max
and the element type is assignable from oe, where m, M and oe are the
bounds and element type of the array-kind type O. -/
def specSizedAssignable (e : DgoType) (mn mx : Int) (O : DgoType) : Bool :=
  decide (mn ≤ minOfD O) && decide (maxOfD O ≤ mx) && assignable e (elementTypeOfD O)

/-- C2 counterexample: with the default (unconstrained) array type on
the right, the code answers false unconditionally (the source comments
this case with lacks size), even for a sized receiver whose bounds are
0..MaxInt64 and whose element type accepts Any, where the claim's
formula holds. -/
theorem sized_array_assignable_cex :
    assignable (tArraySized tAny 0 maxInt64) tArrayDefault = false ∧
    specSizedAssignable tAny 0 maxInt64 tArrayDefault = true := by
  constructor
  · simp [assignable]
  · simp [specSizedAssignable, minOfD, maxOfD, elementTypeOfD, assignable, maxInt64]

/-- C2 (amended): for every array-kind O other than the default array
type the sized-array assignability is exactly the claim's bounds and
element-type formula, while the default array type on the right is
always rejected; the instance half holds as claimed: a value is an
instance exactly when it is an array whose length lies within the
bounds and all of whose elements are instances of the element type. -/
theorem sized_array_assignable_instance :
    ∀ (e : DgoType) (mn mx : Int) (O : DgoType) (v : DgoValue),
      (isArrayTypeB O = true → O ≠ tArrayDefault →
        assignable (tArraySized e mn mx) O = specSizedAssignable e mn mx O) ∧
      assignable (tArraySized e mn mx) tArrayDefault = false ∧
      (instanceOf (tArraySized e mn mx) v = true ↔
        ∃ (s : List DgoValue) (ot : Option DgoType) (fr : Bool),
          v = vArr (.mk s ot fr) ∧ mn ≤ (s.length : Int) ∧ (s.length : Int) ≤ mx ∧
          ∀ u ∈ s, instanceOf e u = true) := by
  intro e mn mx O v
  refine ⟨?_, by simp [assignable], ?_⟩
  · intro hA hD
    cases O with
    | tArrayDefault => exact absurd rfl hD
    | tArraySized e2 mn2 mx2 => simp [assignable, specSizedAssignable]
    | tArrayExact b => simp [assignable, specSizedAssignable]
    | tTuple ts b => simp [assignable, specSizedAssignable]
    | tAny => simp [isArrayTypeB] at hA
    | tInt => simp [isArrayTypeB] at hA
    | tIntExact n => simp [isArrayTypeB] at hA
    | tMeta op => simp [isArrayTypeB] at hA
    | tAllOfValue vs => simp [isArrayTypeB] at hA
    | tAllOf ts => simp [isArrayTypeB] at hA
  · cases v with
    | vInt n => simp [instanceOf]
    | vArr a =>
      match a with
      | .mk s ot fr =>
        simp [instanceOf, Bool.and_eq_true, decide_eq_true_iff, allInstance_all,
          ArrayVal.mk.injEq, and_assoc]

/-- Witness for C2 on concrete sized array types and a one-element
array value. -/
theorem sized_array_assignable_instance_witness :
    isArrayTypeB (tArraySized tInt 1 1) = true ∧
    (tArraySized tInt 1 1 : DgoType) ≠ tArrayDefault ∧
    assignable (tArraySized tInt 0 2) (tArraySized tInt 1 1) =
      specSizedAssignable tInt 0 2 (tArraySized tInt 1 1) ∧
    assignable (tArraySized tInt 0 2) (tArraySized tInt 1 1) = true ∧
    (instanceOf (tArraySized tInt 0 2) (vArr (.mk [vInt 3] none false)) = true ↔
      ∃ (s : List DgoValue) (ot : Option DgoType) (fr : Bool),
        vArr (.mk [vInt 3] none false) = vArr (.mk s ot fr) ∧
        (0 : Int) ≤ (s.length : Int) ∧ (s.length : Int) ≤ 2 ∧
        ∀ u ∈ s, instanceOf tInt u = true) :=
  ⟨rfl, by simp,
    (sized_array_assignable_instance tInt 0 2 (tArraySized tInt 1 1) (vInt 0)).1 rfl (by simp),
    by simp [assignable, specSizedAssignable, minOfD, maxOfD, elementTypeOfD],
    (sized_array_assignable_instance tInt 0 2 (tArraySized tInt 1 1)
      (vArr (.mk [vInt 3] none false))).2.2⟩

/-- C3: the tuple-against-tuple assignability of the code compares
positions only up to the larger fixed prefix, so two purely variadic
tuples are compared without any element-type check: the variadic tuple
over arrays of the exact integer 3 is declared assignable from the one
over arrays of the exact integer 5, although the array holding 5 is an
instance of the latter and not of the former, and the position type 3
is not assignable from 5; the bounds part of the claim holds at this
input. -/
theorem tuple_assignable_skips_variadic_tail :
    assignable (tTuple [tArraySized (tIntExact 3) 0 maxInt64] true)
      (tTuple [tArraySized (tIntExact 5) 0 maxInt64] true) = true ∧
    instanceOf (tTuple [tArraySized (tIntExact 5) 0 maxInt64] true)
      (vArr (.mk [vInt 5] none true)) = true ∧
    instanceOf (tTuple [tArraySized (tIntExact 3) 0 maxInt64] true)
      (vArr (.mk [vInt 5] none true)) = false ∧
    assignable (tIntExact 3) (tIntExact 5) = false ∧
    minOfD (tTuple [tArraySized (tIntExact 3) 0 maxInt64] true) = 0 ∧
    maxOfD (tTuple [tArraySized (tIntExact 3) 0 maxInt64] true) = maxInt64 := by
  refine ⟨?_, ?_, ?_, ?_, ?_, ?_⟩
  · simp [assignable, tupleAssignableTupleB, minOfD, maxOfD, posAll, fixedParts,
      tailElem, maxInt64, lastD]
  · simp [instanceOf, minOfD, maxOfD, pairInstanceAll, eachInstance, elementTypeOfD,
      lastD, maxInt64]
  · simp [instanceOf, minOfD, maxOfD, pairInstanceAll, eachInstance, elementTypeOfD,
      lastD, maxInt64]
  · simp [assignable]
  · simp [minOfD, lastD]
  · simp [maxOfD, lastD, maxInt64]
